import Mathlib

/-!
Shallow embedding of the fork-aware account state cache from
`ethcore/src/state_db.rs` (the `StateDB` type and its helpers), together
with theorems checking the natural-language specification against it.

Modelling conventions:
* `H256`, `Address` and `BlockNumber` are modelled as `Nat` (the code only
  compares them for equality / ordering).
* The shared `Arc<Mutex<AccountCache>>` is modelled by threading an explicit
  `AccountCache` value through each operation; the view-local fields of
  `StateDB` form the `StateDB` structure.
* `LruCache<Address, Option<Account>>` is modelled as an association list in
  most-recently-used-first order; `get_mut` moves the hit entry to the front,
  `insert` inserts at the front and drops the rear entry when over capacity,
  matching the `lru_cache` crate used by the source.
* Fallible backing-store calls are modelled with `Except`.
-/

abbrev H256 := Nat

abbrev Address := Nat

abbrev BlockNumber := Nat

abbrev UtilError := Nat

def STATE_CACHE_ITEMS : Nat := 65536

def STATE_CACHE_BLOCKS : Nat := 8

def ACCOUNT_BLOOM_SPACE : Nat := 1048576

def DEFAULT_ACCOUNT_PRESET : Nat := 1000000

/-- Modelled from the spec: the `Account` type lives outside this repository
(`account::Account`); the spec describes it as an opaque record supporting
`clone_basic` (a storage-less shallow copy) and `overwrite_with` (replace the
mutable basic fields when publishing a modified entry onto an existing one).
We keep a balance, a nonce and an opaque storage component. -/
structure Account where
  balance : Nat
  nonce : Nat
  storage : List (Nat × Nat)
deriving DecidableEq

/-- Modelled from the spec: `Account::new_basic(balance, nonce)` builds an
account with no storage, as used by the canonical test scenario. -/
def Account.new_basic (balance nonce : Nat) : Account :=
  { balance := balance, nonce := nonce, storage := [] }

/-- Modelled from the spec: `clone_basic` returns a storage-less shallow
copy of the account. -/
def Account.clone_basic (a : Account) : Account :=
  { a with storage := [] }

/-- Modelled from the spec: `existing.overwrite_with(other)` replaces the
mutable basic fields with `other`'s and merges the storage accumulated on the
shared entry. -/
def Account.overwrite_with (existing other : Account) : Account :=
  { balance := other.balance, nonce := other.nonce,
    storage := existing.storage ++ other.storage }

/-- Pending account cache item (`CacheQueueItem` in the source). -/
structure CacheQueueItem where
  address : Address
  account : Option Account
  modified : Bool
deriving DecidableEq

/-- Accumulates a list of accounts changed in a block (`BlockChanges`).
The source's `HashSet<Address>` is modelled as a list queried only through
membership. -/
structure BlockChanges where
  number : BlockNumber
  hash : H256
  parent : H256
  accounts : List Address
  is_canon : Bool
deriving DecidableEq

/-- Shared canonical state cache (`AccountCache` in the source): the LRU of
account entries plus the modification log.  The LRU list is kept in
most-recently-used-first order; the log front (index 0) is the most recent
block. -/
structure AccountCache where
  accounts : List (Address × Option Account)
  modifications : List BlockChanges
deriving DecidableEq

/-- View-local part of `StateDB`: the pending cache queue and the
anchor/commit bookkeeping.  The backing `JournalDB`, the shared
`AccountCache` and the shared bloom are supplied explicitly where needed. -/
structure StateDB where
  pending_cache : List CacheQueueItem
  parent_hash : Option H256
  commit_hash : Option H256
  commit_number : Option BlockNumber
deriving DecidableEq

/-- Source `StateDB::new`: fresh view with no anchor and nothing committed. -/
def StateDB.new : StateDB :=
  { pending_cache := [], parent_hash := none, commit_hash := none,
    commit_number := none }

/-- The shared cache as `StateDB::new` creates it: empty LRU, empty log. -/
def freshAccountCache : AccountCache :=
  { accounts := [], modifications := [] }

/-! ### LRU primitives (the `lru_cache` crate operations used by the source) -/

/-- Models `LruCache::remove`: drop the entry with the given key. -/
def lruRemove (l : List (Address × Option Account)) (k : Address) :
    List (Address × Option Account) :=
  l.filter (fun e => e.1 != k)

/-- Value lookup without recency update (used to express what `get_mut`
returns). -/
def lruGet? (l : List (Address × Option Account)) (k : Address) :
    Option (Option Account) :=
  (l.find? (fun e => e.1 == k)).map (fun e => e.2)

/-- The recency effect of `LruCache::get_mut`: a hit entry moves to the
front; a miss leaves the list unchanged. -/
def lruTouch (l : List (Address × Option Account)) (k : Address) :
    List (Address × Option Account) :=
  match l.find? (fun e => e.1 == k) with
  | none => l
  | some e => e :: lruRemove l k

/-- Models `LruCache::insert` with capacity `cap`: place the entry at the front
(replacing any entry with the same key) and evict the least-recently-used
(rear) entry when the length exceeds the capacity. -/
def lruInsert (cap : Nat) (l : List (Address × Option Account))
    (k : Address) (v : Option Account) : List (Address × Option Account) :=
  let l' := (k, v) :: lruRemove l k
  if cap < l'.length then l'.dropLast else l'

/-! ### `is_allowed` -/

/-- The walk inside `StateDB::is_allowed`: scan the modification log from
front (highest number) to back, maintaining the current parent-chain hash. -/
def isAllowedWalk (addr : Address) (parent : H256) :
    List BlockChanges → Bool
  | [] => false
  | m :: rest =>
    if m.hash == parent then
      if m.is_canon then true
      else if m.accounts.contains addr then false
      else isAllowedWalk addr m.parent rest
    else if m.accounts.contains addr then false
    else isAllowedWalk addr parent rest

/-- Source `StateDB::is_allowed`. -/
def is_allowed (addr : Address) (parent_hash : Option H256)
    (modifications : List BlockChanges) : Bool :=
  match parent_hash with
  | none => false
  | some parent =>
    if modifications.isEmpty then true
    else isAllowedWalk addr parent modifications

/-! ### Cache reads -/

/-- Source `StateDB::get_cached_account`.  Returns the (basic copy of the) cached
entry together with the shared cache after the `get_mut` recency update. -/
def StateDB.get_cached_account (s : StateDB) (cache : AccountCache)
    (addr : Address) : Option (Option Account) × AccountCache :=
  if ¬ is_allowed addr s.parent_hash cache.modifications then (none, cache)
  else
    ((lruGet? cache.accounts addr).map (fun a => a.map Account.clone_basic),
     { cache with accounts := lruTouch cache.accounts addr })

/-- Source `StateDB::get_cached`.  The closure receives the cached entry and may
mutate the account in place (modelled by returning the updated entry). -/
def StateDB.get_cached {U : Type} (s : StateDB) (cache : AccountCache)
    (a : Address) (f : Option Account → U × Option Account) :
    Option U × AccountCache :=
  if ¬ is_allowed a s.parent_hash cache.modifications then (none, cache)
  else
    match lruGet? cache.accounts a with
    | none => (none, cache)
    | some entry =>
      let r := f entry
      (some r.1, { cache with accounts := (a, r.2) :: lruRemove cache.accounts a })

/-! ### Clones, queueing, commit -/

/-- Source `StateDB::boxed_clone`: fresh pending queue, no anchor, nothing
committed (the shared cache and bloom handles are shared, hence not part of
the view structure). -/
def StateDB.boxed_clone (_s : StateDB) : StateDB :=
  { pending_cache := [], parent_hash := none, commit_hash := none,
    commit_number := none }

/-- Source `StateDB::boxed_clone_canon`: like `boxed_clone` but anchored at
`parent`. -/
def StateDB.boxed_clone_canon (_s : StateDB) (parent : H256) : StateDB :=
  { pending_cache := [], parent_hash := some parent, commit_hash := none,
    commit_number := none }

/-- Source `StateDB::add_to_account_cache`: push a pending item. -/
def StateDB.add_to_account_cache (s : StateDB) (addr : Address)
    (data : Option Account) (modified : Bool) : StateDB :=
  { s with pending_cache :=
      s.pending_cache ++ [{ address := addr, account := data, modified := modified }] }

/-- Source `StateDB::commit`.  The journalled backing-store call
`self.db.commit(batch, now, id, end)` is supplied as `dbResult`; the bloom
journal flush writes only into the batch and touches none of the view
fields, so it is not represented.  On a backing-store error the `try!`
returns before `commit_hash`/`commit_number` are set. -/
def StateDB.commit (s : StateDB) (dbResult : Except UtilError Nat)
    (now : BlockNumber) (id : H256) : Except UtilError Nat × StateDB :=
  match dbResult with
  | Except.error e => (Except.error e, s)
  | Except.ok records =>
    (Except.ok records,
     { s with commit_hash := some id, commit_number := some now })

/-! ### `sync_cache`, decomposed into the source's phases -/

/-- Remove every address of `addrs` from the LRU
(`for a in &m.accounts { cache.accounts.remove(a); }`). -/
def removeAddrs (accounts : List (Address × Option Account))
    (addrs : List Address) : List (Address × Option Account) :=
  addrs.foldl lruRemove accounts

/-- In-place update of the first log record with the given hash
(`cache.modifications.iter_mut().find(..)` followed by `m.is_canon = c`). -/
def setCanonFirst (mods : List BlockChanges) (block : H256) (c : Bool) :
    List BlockChanges :=
  match mods with
  | [] => []
  | m :: rest =>
    if m.hash == block then { m with is_canon := c } :: rest
    else m :: setCanonFirst rest block c

/-- One body of the reconcile loops: if the log has a record for `block`,
set its canonical flag to `canon` and drop its addresses from the LRU
(`some` result); otherwise report a miss (`none`). -/
def reconcileBlock (canon : Bool) (cache : AccountCache) (block : H256) :
    Option AccountCache :=
  match cache.modifications.find? (fun m => m.hash == block) with
  | some m =>
    some { accounts := removeAddrs cache.accounts m.accounts,
           modifications := setCanonFirst cache.modifications block canon }
  | none => none

/-- The `enacted` loop of `sync_cache`: blocks equal to the commit hash are
filtered out (`filter(|h| self.commit_hash.as_ref().map_or(false, |p| *h != p))`,
which also drops every block when no commit hash is set), and
`clear = clear || { .. }` short-circuits the body once `clear` is true. -/
def enactedLoop (ch : Option H256) :
    List H256 → AccountCache → Bool → AccountCache × Bool
  | [], cache, clear => (cache, clear)
  | block :: rest, cache, clear =>
    if (match ch with | none => false | some p => block != p) then
      if clear then enactedLoop ch rest cache true
      else
        match reconcileBlock true cache block with
        | some cache' => enactedLoop ch rest cache' false
        | none => enactedLoop ch rest cache true
    else enactedLoop ch rest cache clear

/-- The `retracted` loop of `sync_cache`: same shape, no filter, records are
marked non-canonical. -/
def retractedLoop :
    List H256 → AccountCache → Bool → AccountCache × Bool
  | [], cache, clear => (cache, clear)
  | block :: rest, cache, clear =>
    if clear then retractedLoop rest cache true
    else
      match reconcileBlock false cache block with
      | some cache' => retractedLoop rest cache' false
      | none => retractedLoop rest cache true

/-- Models the wipe: when the clear flag is set, both the LRU and the
modification log are cleared. -/
def applyClear (cache : AccountCache) (clear : Bool) : AccountCache :=
  if clear then { accounts := [], modifications := [] } else cache

/-- Phases 1–4 of `sync_cache`: reconcile enacted then retracted blocks and
wipe everything on a log miss. -/
def reconcilePhase (ch : Option H256) (cache : AccountCache)
    (enacted retracted : List H256) : AccountCache :=
  let r1 := enactedLoop ch enacted cache false
  let r2 := retractedLoop retracted r1.1 r1.2
  applyClear r2.1 r2.2

/-- One iteration of the publish loop over the drained pending queue,
applied when `is_best` holds: a `get_mut` hit on a present entry combined
with a present new account overwrites in place when `modified` (and leaves
the value otherwise); every other case falls through to `insert`. -/
def applyQueueItem (accounts : List (Address × Option Account))
    (item : CacheQueueItem) : List (Address × Option Account) :=
  match lruGet? accounts item.address with
  | some (some existing) =>
    match item.account with
    | some newAcc =>
      (item.address,
        some (if item.modified then existing.overwrite_with newAcc else existing))
        :: lruRemove accounts item.address
    | none => lruInsert STATE_CACHE_ITEMS accounts item.address none
  | _ => lruInsert STATE_CACHE_ITEMS accounts item.address item.account

/-- The set of addresses of pending items with `modified = true`
(the `modifications` hash-set built while draining), queried only through
membership. -/
def pendingModifiedSet (pending : List CacheQueueItem) : List Address :=
  (pending.filter (fun a => a.modified)).map (fun a => a.address)

/-- Insert the new `BlockChanges` at the first position whose number is
strictly less than the committed number, or push to the rear. -/
def insertModification (mods : List BlockChanges) (bc : BlockChanges) :
    List BlockChanges :=
  match mods with
  | [] => [bc]
  | m :: rest =>
    if m.number < bc.number then bc :: m :: rest
    else m :: insertModification rest bc

/-- Phase 5 of `sync_cache`: publish the just-committed block.  Runs only
when `commit_number`, `commit_hash` and `parent_hash` are all set; pops the
rear log entry when the log is full, applies the pending queue to the LRU
when `is_best`, drains the pending queue, and inserts the new
`BlockChanges`. -/
def publishPhase (s : StateDB) (cache : AccountCache) (is_best : Bool) :
    StateDB × AccountCache :=
  match s.commit_number, s.commit_hash, s.parent_hash with
  | some number, some hash, some parent =>
    let mods0 :=
      if cache.modifications.length == STATE_CACHE_BLOCKS then
        cache.modifications.dropLast
      else cache.modifications
    let accounts :=
      if is_best then s.pending_cache.foldl applyQueueItem cache.accounts
      else cache.accounts
    let bc : BlockChanges :=
      { accounts := pendingModifiedSet s.pending_cache, number := number,
        hash := hash, is_canon := is_best, parent := parent }
    ({ s with pending_cache := [] },
     { accounts := accounts, modifications := insertModification mods0 bc })
  | _, _, _ => (s, cache)

/-- Source `StateDB::sync_cache`. -/
def StateDB.sync_cache (s : StateDB) (cache : AccountCache)
    (enacted retracted : List H256) (is_best : Bool) :
    StateDB × AccountCache :=
  publishPhase s (reconcilePhase s.commit_hash cache enacted retracted) is_best

/-! ### The account bloom and `load_bloom` -/

/-- The byte values of the 18-byte ASCII key `account_hash_count`
(`ACCOUNT_BLOOM_HASHCOUNT_KEY`). -/
def ACCOUNT_BLOOM_HASHCOUNT_KEY : List Nat :=
  [97, 99, 99, 111, 117, 110, 116, 95, 104, 97, 115, 104, 95, 99, 111, 117,
   110, 116]

/-- Little-endian byte expansion, `k` bytes. -/
def leBytes : Nat → Nat → List Nat
  | 0, _ => []
  | k + 1, n => (n % 256) :: leBytes k (n / 256)

/-- Models `LittleEndian::write_u64` into an 8-byte buffer. -/
def writeU64 (n : Nat) : List Nat :=
  leBytes 8 (n % 2 ^ 64)

/-- Models `LittleEndian::read_u64` from the first 8 bytes of a buffer. -/
def readU64 (bytes : List Nat) : Nat :=
  (bytes.take 8).foldr (fun b acc => b + 256 * acc) 0

/-- Modelled from the spec: the `bloomfilter` crate's `Bloom` is external to
this repository, so the value is kept abstract: `load_bloom` only ever builds
it through `Bloom::new(space, preset)` or
`Bloom::from_parts(parts, hash_count)`, which we keep as constructors. -/
inductive Bloom where
  | new (bitmap_size : Nat) (items_count : Nat)
  | from_parts (parts : List Nat) (hash_count : Nat)
deriving DecidableEq

/-- The backing database restricted to the bloom column: a partial map from
key bytes to value bytes. -/
def BloomDb := List Nat → Option (List Nat)

/-- Source `StateDB::load_bloom`.  A `none` result models the `assert_eq!` failure on a
hash-count entry whose length is not exactly 1; absent per-word keys read as
the zero word. -/
def load_bloom (db : BloomDb) : Option Bloom :=
  match db ACCOUNT_BLOOM_HASHCOUNT_KEY with
  | none => some (Bloom.new ACCOUNT_BLOOM_SPACE DEFAULT_ACCOUNT_PRESET)
  | some hash_count_bytes =>
    if hash_count_bytes.length = 1 then
      some (Bloom.from_parts
        ((List.range (ACCOUNT_BLOOM_SPACE / 8)).map (fun i =>
          match db (writeU64 i) with
          | some val => readU64 val
          | none => 0))
        (hash_count_bytes.headD 0))
    else none

/-- Modelled from the spec's words for claim C9: identical to `load_bloom`
except that the per-word keys range over `0 ≤ i < ACCOUNT_BLOOM_SPACE / 64`,
as the spec states. -/
def load_bloom_claimed (db : BloomDb) : Option Bloom :=
  match db ACCOUNT_BLOOM_HASHCOUNT_KEY with
  | none => some (Bloom.new ACCOUNT_BLOOM_SPACE DEFAULT_ACCOUNT_PRESET)
  | some hash_count_bytes =>
    if hash_count_bytes.length = 1 then
      some (Bloom.from_parts
        ((List.range (ACCOUNT_BLOOM_SPACE / 64)).map (fun i =>
          match db (writeU64 i) with
          | some val => readU64 val
          | none => 0))
        (hash_count_bytes.headD 0))
    else none

/-- Modelled from the spec's words for the amended claim C9: the reassembly
reads the words for `0 ≤ i < ACCOUNT_BLOOM_SPACE / 8` (the space constant
counts bytes, eight 64-bit words per 64 bytes of space as the code has it). -/
def load_bloom_amended (db : BloomDb) : Option Bloom :=
  match db ACCOUNT_BLOOM_HASHCOUNT_KEY with
  | none => some (Bloom.new ACCOUNT_BLOOM_SPACE DEFAULT_ACCOUNT_PRESET)
  | some hash_count_bytes =>
    if hash_count_bytes.length = 1 then
      some (Bloom.from_parts
        ((List.range (ACCOUNT_BLOOM_SPACE / 8)).map (fun i =>
          match db (writeU64 i) with
          | some val => readU64 val
          | none => 0))
        (hash_count_bytes.headD 0))
    else none

/-- A concrete bloom column holding only a hash-count byte: every per-word
key is absent and reads as zero. -/
def bloomDbHashCountOnly : BloomDb :=
  fun k => if k = ACCOUNT_BLOOM_HASHCOUNT_KEY then some [3] else none

/-! ### Spec-side rendering of `is_allowed` (claim C2) -/

/-- Modelled from the spec's words for claim C2: walk the log front to back
keeping a current ancestor hash; a canonical record matching the ancestor
allows, a non-canonical match advances the ancestor, a record containing the
address forbids, exhaustion forbids. -/
def isAllowedClaimWalk (addr : Address) (parent : H256) :
    List BlockChanges → Bool
  | [] => false
  | m :: rest =>
    if m.hash == parent ∧ m.is_canon then true
    else
      let parent' := if m.hash == parent then m.parent else parent
      if m.accounts.contains addr then false
      else isAllowedClaimWalk addr parent' rest

/-- Modelled from the spec's words for claim C2: `None` parent forbids, an
empty log (with a parent present) allows, otherwise walk. -/
def is_allowed_claimed (addr : Address) (parent_hash : Option H256)
    (modifications : List BlockChanges) : Bool :=
  match parent_hash with
  | none => false
  | some parent =>
    if modifications.isEmpty then true
    else isAllowedClaimWalk addr parent modifications

/-! ### Spec-side rendering of the enacted reconciliation (claim C4) -/

/-- Modelled from the spec's words for claim C4: every enacted hash other
than the commit hash is reconciled — a found record is marked canonical and
its addresses removed from the LRU, a miss sets the clear flag — with no
short-circuiting once the flag is set. -/
def enactedLoopClaimed (c : H256) :
    List H256 → AccountCache → Bool → AccountCache × Bool
  | [], cache, clear => (cache, clear)
  | block :: rest, cache, clear =>
    if block ≠ c then
      match reconcileBlock true cache block with
      | some cache' => enactedLoopClaimed c rest cache' clear
      | none => enactedLoopClaimed c rest cache true
    else enactedLoopClaimed c rest cache clear

/-- Variant of `sync_cache` with the enacted phase replaced by the claim's rendering
(retracted phase, wipe and publish unchanged). -/
def syncCacheClaimedEnacted (s : StateDB) (cache : AccountCache) (c : H256)
    (enacted retracted : List H256) (is_best : Bool) :
    StateDB × AccountCache :=
  let r1 := enactedLoopClaimed c enacted cache false
  let r2 := retractedLoop retracted r1.1 r1.2
  publishPhase s (applyClear r2.1 r2.2) is_best

/-! ### Sequences of sync calls (claim C5) -/

/-- One `sync_cache` call performed by some view. -/
structure SyncCall where
  view : StateDB
  enacted : List H256
  retracted : List H256
  is_best : Bool
deriving DecidableEq

/-- Run a sequence of `sync_cache` calls against the shared cache. -/
def runSyncCalls (cache : AccountCache) (calls : List SyncCall) :
    AccountCache :=
  calls.foldl
    (fun c call => (call.view.sync_cache c call.enacted call.retracted call.is_best).2)
    cache

/-- The block numbers of the log, front to back. -/
def numbersOf (mods : List BlockChanges) : List Nat :=
  mods.map (fun m => m.number)

/-- Weakly descending (non-increasing) list of numbers. -/
def sortedDesc (l : List Nat) : Prop :=
  l.Pairwise (fun a b => b ≤ a)

/-- Strictly descending list of numbers (the ordering claim C5 states). -/
def strictDesc (l : List Nat) : Prop :=
  l.Pairwise (fun a b => b < a)

/-- The log invariant of the amended claim C5: at most
`STATE_CACHE_BLOCKS` entries, ordered by non-increasing block number. -/
def logInv (cache : AccountCache) : Prop :=
  cache.modifications.length ≤ STATE_CACHE_BLOCKS ∧
    sortedDesc (numbersOf cache.modifications)

/-! ### The canonical six-step scenario (claim C1) -/

/-- One scenario step: clone a canonical view of the fresh `StateDB` at
`parent`, queue the given pending items, commit block `(n, h)` against a
succeeding backing store, and run `sync_cache [] [] best`, returning the
updated shared cache. -/
def scenarioStep (cache : AccountCache) (parent : H256)
    (pending : List (Address × Option Account × Bool)) (n : BlockNumber)
    (h : H256) (best : Bool) : AccountCache :=
  let v0 := StateDB.new.boxed_clone_canon parent
  let v1 := pending.foldl
    (fun v p => v.add_to_account_cache p.1 p.2.1 p.2.2) v0
  let v2 := (v1.commit (Except.ok 0) n h).2
  (v2.sync_cache cache [] [] best).2

def addrA : Address := 1

def hashP : H256 := 90

def hash0 : H256 := 10

def hash1a : H256 := 11

def hash1b : H256 := 12

def hash2a : H256 := 21

def hash2b : H256 := 22

def hash3a : H256 := 31

/-- The shared cache after the six steps of the spec's end-to-end
scenario. -/
def scenarioCache : AccountCache :=
  let c1 := scenarioStep freshAccountCache hashP
    [(addrA, some (Account.new_basic 2 0), false)] 0 hash0 true
  let c2 := scenarioStep c1 hash0 [] 1 hash1a true
  let c3 := scenarioStep c2 hash0
    [(addrA, some (Account.new_basic 3 0), true)] 1 hash1b false
  let c4 := scenarioStep c3 hash1b
    [(addrA, some (Account.new_basic 4 0), true)] 2 hash2b false
  let c5 := scenarioStep c4 hash1a
    [(addrA, some (Account.new_basic 5 0), true)] 2 hash2a true
  scenarioStep c5 hash2a [] 3 hash3a true

/-- A committed view used to exhibit the behaviour of `sync_cache` after a
log miss: anchored at parent 5, committed block 7 at number 1. -/
def c3view : StateDB :=
  { pending_cache := [], parent_hash := some 5, commit_hash := some 7,
    commit_number := some 1 }

/-- Rendering of `insertModification` at the level of the block-number list. -/
def insertNum (l : List Nat) (n : Nat) : List Nat :=
  match l with
  | [] => [n]
  | m :: rest => if m < n then n :: m :: rest else m :: insertNum rest n

/-- A sync call committing block 11 at number 1 on parent 0, best. -/
def c5call1 : SyncCall :=
  { view := { pending_cache := [], parent_hash := some 0,
              commit_hash := some 11, commit_number := some 1 },
    enacted := [], retracted := [], is_best := true }

/-- A sync call committing the sibling block 12 at number 1 on parent 0,
not best. -/
def c5call2 : SyncCall :=
  { view := { pending_cache := [], parent_hash := some 0,
              commit_hash := some 12, commit_number := some 1 },
    enacted := [], retracted := [], is_best := false }

/-- A shared cache whose modification log is full (8 entries, descending
numbers 8 down to 1). -/
def cacheFullLog : AccountCache :=
  { accounts := [],
    modifications :=
      (List.range STATE_CACHE_BLOCKS).map (fun i =>
        { number := 8 - i, hash := 8 - i, parent := 7 - i, accounts := [],
          is_canon := true }) }

/-! ## Theorems -/

theorem isAllowedWalk_eq_claim (addr : Address) :
    ∀ (mods : List BlockChanges) (parent : H256),
      isAllowedWalk addr parent mods = isAllowedClaimWalk addr parent mods := by
  intro mods
  induction mods with
  | nil => intro parent; rfl
  | cons m rest ih =>
    intro parent
    by_cases h1 : m.hash = parent
    · cases hc : m.is_canon <;>
        simp [isAllowedWalk, isAllowedClaimWalk, h1, hc, ih]
    · simp [isAllowedWalk, isAllowedClaimWalk, h1, ih]

/-- Claim C2: `is_allowed` computes exactly the walk the spec describes —
`None` parent forbids, an empty log allows, and otherwise the log is walked
front to back maintaining the current ancestor hash, where a canonical record
matching the ancestor allows, a non-canonical match advances the ancestor,
a record whose address set contains the queried address forbids, and
exhaustion forbids. -/
theorem c2_is_allowed_matches_claim :
    ∀ (addr : Address) (parent_hash : Option H256) (mods : List BlockChanges),
      is_allowed addr parent_hash mods = is_allowed_claimed addr parent_hash mods := by
  intro addr ph mods
  cases ph with
  | none => rfl
  | some p => simp [is_allowed, is_allowed_claimed, isAllowedWalk_eq_claim]

/-- Claim C1: after the six-step scenario (commit `h0` on parent `P` queuing
`A` unmodified with balance 2, best; `h1a` on `h0`, best; `h1b` on `h0`
queuing `A` modified with balance 3, not best; `h2b` on `h1b` queuing `A`
modified with balance 4, not best; `h2a` on `h1a` queuing `A` modified with
balance 5, best; `h3a` on `h2a`, best), a view created by
`boxed_clone_canon(h3a)` reads `A` from cache with balance 5, while views
anchored at `h1a`, `h1b` and `h2b` read `None`. -/
theorem c1_scenario_cache_visibility :
    ((StateDB.new.boxed_clone_canon hash3a).get_cached_account scenarioCache addrA).1
      = some (some { balance := 5, nonce := 0, storage := [] }) ∧
    ((StateDB.new.boxed_clone_canon hash1a).get_cached_account scenarioCache addrA).1 = none ∧
    ((StateDB.new.boxed_clone_canon hash1b).get_cached_account scenarioCache addrA).1 = none ∧
    ((StateDB.new.boxed_clone_canon hash2b).get_cached_account scenarioCache addrA).1 = none := by
  decide

/-- Claim C6: a view that commits and then synchronizes with
`is_best = false` (a plain non-canonical commit, no reorg lists) leaves the
contents of the shared LRU unchanged. -/
theorem c6_non_canonical_commit_preserves_lru :
    ∀ (s : StateDB) (cache : AccountCache) (records now id : Nat),
      (((s.commit (Except.ok records) now id).2).sync_cache cache [] [] false).2.accounts
        = cache.accounts := by
  intro s cache records now id
  cases hp : s.parent_hash <;>
    simp [StateDB.commit, StateDB.sync_cache, reconcilePhase, enactedLoop,
      retractedLoop, applyClear, publishPhase, hp]

/-- Claim C7: a view produced by `boxed_clone` has no parent hash, so both
cache-read operations return `None` for every address. -/
theorem c7_plain_clone_reads_none (s : StateDB) (cache : AccountCache)
    (addr : Address) {U : Type} (f : Option Account → U × Option Account) :
    ((s.boxed_clone).get_cached_account cache addr).1 = none ∧
    ((s.boxed_clone).get_cached cache addr f).1 = none := by
  constructor <;>
    simp [StateDB.boxed_clone, StateDB.get_cached_account, StateDB.get_cached,
      is_allowed]

/-- Claim C10: when the backing store's commit errors, `StateDB::commit`
propagates the error before setting `commit_hash`/`commit_number`, so a view
that never committed keeps both fields `None`; its subsequent `sync_cache`
then skips the publish step entirely — the result is just the
enacted/retracted reconciliation (with every enacted hash filtered out,
since there is no commit hash), no `BlockChanges` entry and no pending item
published, and the view (its pending queue included) unchanged. -/
theorem c10_commit_error_is_inert (s : StateDB) (e : UtilError)
    (now : BlockNumber) (id : H256) (h1 : s.commit_hash = none)
    (h2 : s.commit_number = none) :
    (s.commit (Except.error e) now id).1 = Except.error e ∧
    (s.commit (Except.error e) now id).2 = s ∧
    ∀ (cache : AccountCache) (enacted retracted : List H256) (is_best : Bool),
      ((s.commit (Except.error e) now id).2).sync_cache cache enacted retracted is_best
        = (s, reconcilePhase none cache enacted retracted) := by
  refine ⟨rfl, rfl, ?_⟩
  intro cache en re best
  show s.sync_cache cache en re best = _
  simp [StateDB.sync_cache, publishPhase, h1, h2]

theorem c10_commit_error_is_inert_witness :
    StateDB.new.commit_hash = none ∧ StateDB.new.commit_number = none ∧
    (StateDB.new.commit (Except.error 0) 1 2).1 = Except.error 0 ∧
    ((StateDB.new.commit (Except.error 0) 1 2).2).sync_cache freshAccountCache [3] [4] true
      = (StateDB.new, reconcilePhase none freshAccountCache [3] [4]) :=
  ⟨rfl, rfl, (c10_commit_error_is_inert StateDB.new 0 1 2 rfl rfl).1,
   (c10_commit_error_is_inert StateDB.new 0 1 2 rfl rfl).2.2 freshAccountCache [3] [4] true⟩

/-- Claim C8: publishing with `is_best = true` applies the pending items in
queue order (`foldl` over the drained queue); for one item, a present LRU
record combined with a present new account is overwritten in place when the
item is `modified` and its value left untouched otherwise, and in every
other case the item's pair is inserted (with LRU eviction at capacity,
inside `lruInsert`). -/
theorem c8_publish_item_application
    (accounts : List (Address × Option Account)) (item : CacheQueueItem)
    (s : StateDB) (cache : AccountCache) (n : BlockNumber) (h p : H256) :
    (∀ existing newAcc,
        lruGet? accounts item.address = some (some existing) →
        item.account = some newAcc →
        applyQueueItem accounts item
          = (item.address,
              some (if item.modified then existing.overwrite_with newAcc else existing))
            :: lruRemove accounts item.address) ∧
    (lruGet? accounts item.address = none ∨
        lruGet? accounts item.address = some none ∨ item.account = none →
        applyQueueItem accounts item
          = lruInsert STATE_CACHE_ITEMS accounts item.address item.account) ∧
    (s.commit_number = some n → s.commit_hash = some h → s.parent_hash = some p →
        ((s.sync_cache cache [] [] true).2).accounts
          = s.pending_cache.foldl applyQueueItem cache.accounts) := by
  refine ⟨?_, ?_, ?_⟩
  · intro ex na hg ha
    simp [applyQueueItem, hg, ha]
  · intro hcase
    rcases hcase with hg | hg | ha
    · simp [applyQueueItem, hg]
    · simp [applyQueueItem, hg]
    · cases hg : lruGet? accounts item.address with
      | none => simp [applyQueueItem, hg]
      | some entry =>
        cases entry with
        | none => simp [applyQueueItem, hg]
        | some ex => simp [applyQueueItem, hg, ha]
  · intro h1 h2 h3
    simp [StateDB.sync_cache, reconcilePhase, enactedLoop, retractedLoop,
      applyClear, publishPhase, h1, h2, h3]

theorem c8_publish_item_application_witness :
    applyQueueItem [(1, some (Account.new_basic 2 0))]
        { address := 1, account := some (Account.new_basic 5 0), modified := true }
      = (1, some ((Account.new_basic 2 0).overwrite_with (Account.new_basic 5 0)))
        :: lruRemove [(1, some (Account.new_basic 2 0))] 1 :=
  (c8_publish_item_application [(1, some (Account.new_basic 2 0))]
      { address := 1, account := some (Account.new_basic 5 0), modified := true }
      StateDB.new freshAccountCache 0 0 0).1
    (Account.new_basic 2 0) (Account.new_basic 5 0) rfl rfl

theorem enactedLoop_clear_true (ch : Option H256) :
    ∀ (en : List H256) (cache : AccountCache),
      enactedLoop ch en cache true = (cache, true) := by
  intro en
  induction en with
  | nil => intro cache; rfl
  | cons b rest ih =>
    intro cache
    simp only [enactedLoop]
    split <;> simp [ih]

theorem retractedLoop_clear_true :
    ∀ (re : List H256) (cache : AccountCache),
      retractedLoop re cache true = (cache, true) := by
  intro re
  induction re with
  | nil => intro cache; rfl
  | cons b rest ih =>
    intro cache
    simp only [retractedLoop]
    simp [ih]

theorem enactedLoopClaimed_true (c : H256) :
    ∀ (en : List H256) (cache : AccountCache),
      (enactedLoopClaimed c en cache true).2 = true := by
  intro en
  induction en with
  | nil => intro cache; rfl
  | cons b rest ih =>
    intro cache
    simp only [enactedLoopClaimed]
    split
    · cases hr : reconcileBlock true cache b <;> simp [hr, ih]
    · exact ih cache

theorem mem_setCanonFirst_hash (block : H256) (c : Bool) :
    ∀ (mods : List BlockChanges) (x : BlockChanges),
      x ∈ setCanonFirst mods block c → ∃ y ∈ mods, x.hash = y.hash := by
  intro mods
  induction mods with
  | nil => intro x hx; simp [setCanonFirst] at hx
  | cons m rest ih =>
    intro x hx
    simp only [setCanonFirst] at hx
    split at hx
    · rcases List.mem_cons.mp hx with rfl | hx'
      · exact ⟨m, List.mem_cons_self m rest, rfl⟩
      · exact ⟨x, List.mem_cons_of_mem m hx', rfl⟩
    · rcases List.mem_cons.mp hx with rfl | hx'
      · exact ⟨x, List.mem_cons_self x rest, rfl⟩
      · obtain ⟨y, hy, hxy⟩ := ih x hx'
        exact ⟨y, List.mem_cons_of_mem m hy, hxy⟩

theorem find_none_reconcile (canon : Bool) (cache cache' : AccountCache)
    (block b : H256)
    (hr : reconcileBlock canon cache block = some cache')
    (h : cache.modifications.find? (fun m => m.hash == b) = none) :
    cache'.modifications.find? (fun m => m.hash == b) = none := by
  unfold reconcileBlock at hr
  cases hf : cache.modifications.find? (fun m => m.hash == block) with
  | none => rw [hf] at hr; cases hr
  | some m =>
    rw [hf] at hr
    injection hr with hr'
    rw [← hr']
    rw [List.find?_eq_none] at h ⊢
    intro x hx
    obtain ⟨y, hy, hxy⟩ := mem_setCanonFirst_hash block canon cache.modifications x hx
    simpa [hxy] using h y hy

theorem find_none_enactedLoop (ch : Option H256) (b : H256) :
    ∀ (en : List H256) (cache : AccountCache) (clear : Bool),
      cache.modifications.find? (fun m => m.hash == b) = none →
      (enactedLoop ch en cache clear).1.modifications.find?
        (fun m => m.hash == b) = none := by
  intro en
  induction en with
  | nil => intro cache clear h; exact h
  | cons blk rest ih =>
    intro cache clear h
    simp only [enactedLoop]
    split
    · split
      · exact ih cache true h
      · cases hr : reconcileBlock true cache blk with
        | none => simp only [hr]; exact ih cache true h
        | some cache' =>
          simp only [hr]
          exact ih cache' false (find_none_reconcile true cache cache' blk b hr h)
    · exact ih cache clear h

theorem retractedLoop_miss_true (b : H256) :
    ∀ (re : List H256) (cache : AccountCache) (clear : Bool),
      b ∈ re →
      cache.modifications.find? (fun m => m.hash == b) = none →
      (retractedLoop re cache clear).2 = true := by
  intro re
  induction re with
  | nil => intro cache clear hmem _; cases hmem
  | cons r rest ih =>
    intro cache clear hmem h
    simp only [retractedLoop]
    split
    · simp [retractedLoop_clear_true]
    · rcases List.mem_cons.mp hmem with rfl | hmem'
      · cases hr : reconcileBlock false cache b with
        | none => simp [hr, retractedLoop_clear_true]
        | some cache' =>
          exfalso
          unfold reconcileBlock at hr
          rw [h] at hr
          cases hr
      · cases hr : reconcileBlock false cache r with
        | none => simp [hr, retractedLoop_clear_true]
        | some cache' =>
          simp only [hr]
          exact ih cache' false hmem' (find_none_reconcile false cache cache' r b hr h)

theorem enactedLoop_miss_true (c b : H256) (hbc : b ≠ c) :
    ∀ (en : List H256) (cache : AccountCache) (clear : Bool),
      b ∈ en →
      cache.modifications.find? (fun m => m.hash == b) = none →
      (enactedLoop (some c) en cache clear).2 = true := by
  intro en
  induction en with
  | nil => intro cache clear hmem _; cases hmem
  | cons blk rest ih =>
    intro cache clear hmem h
    simp only [enactedLoop]
    by_cases hblk : blk = c
    · simp only [hblk, bne_self_eq_false, if_neg]
      rcases List.mem_cons.mp hmem with rfl | hmem'
      · exact absurd hblk hbc
      · simp only [Bool.false_eq_true, if_false]
        exact ih cache clear hmem' h
    · rw [if_pos (by simp [hblk])]
      split
      · simp [enactedLoop_clear_true]
      · rcases List.mem_cons.mp hmem with rfl | hmem'
        · cases hr : reconcileBlock true cache b with
          | none => simp [hr, enactedLoop_clear_true]
          | some cache' =>
            exfalso
            unfold reconcileBlock at hr
            rw [h] at hr
            cases hr
        · cases hr : reconcileBlock true cache blk with
          | none => simp [hr, enactedLoop_clear_true]
          | some cache' =>
            simp only [hr]
            exact ih cache' false hmem' (find_none_reconcile true cache cache' blk b hr h)

/-- Claim C3 as stated is false: the publish step runs after the wipe, so a
committed view's `sync_cache` leaves a non-empty modification log even when a
retracted hash has no record in the log. -/
theorem c3_counterexample :
    freshAccountCache.modifications.find? (fun m => m.hash == 3) = none ∧
    (c3view.sync_cache freshAccountCache [] [3] true).2.modifications ≠ [] := by
  decide

/-- Claim C3, amended: if some retracted hash — or some enacted hash other
than the view's commit hash, when a commit hash is present — has no record in
the modification log, then the LRU and the log are wiped before the publish
step: the call behaves exactly as if the shared cache had been empty, so
both are empty afterwards precisely when the view publishes nothing. -/
theorem c3_amended_wipe_on_log_miss (s : StateDB) (cache : AccountCache)
    (enacted retracted : List H256) (is_best : Bool)
    (h : (∃ b ∈ retracted,
            cache.modifications.find? (fun m => m.hash == b) = none) ∨
         (∃ c, s.commit_hash = some c ∧ ∃ b ∈ enacted, b ≠ c ∧
            cache.modifications.find? (fun m => m.hash == b) = none)) :
    reconcilePhase s.commit_hash cache enacted retracted = freshAccountCache ∧
    s.sync_cache cache enacted retracted is_best
      = publishPhase s freshAccountCache is_best := by
  have hflag : (retractedLoop retracted
      (enactedLoop s.commit_hash enacted cache false).1
      (enactedLoop s.commit_hash enacted cache false).2).2 = true := by
    rcases h with ⟨b, hb, hnone⟩ | ⟨c, hc, b, hb, hbc, hnone⟩
    · cases hcl : (enactedLoop s.commit_hash enacted cache false).2 with
      | false =>
        exact retractedLoop_miss_true b retracted _ false hb
          (find_none_enactedLoop s.commit_hash b enacted cache false hnone)
      | true => simp [retractedLoop_clear_true]
    · rw [hc]
      rw [enactedLoop_miss_true c b hbc enacted cache false hb hnone]
      simp [retractedLoop_clear_true]
  have hrec : reconcilePhase s.commit_hash cache enacted retracted
      = freshAccountCache := by
    simp only [reconcilePhase]
    rw [hflag]
    simp [applyClear, freshAccountCache]
  refine ⟨hrec, ?_⟩
  show publishPhase s (reconcilePhase s.commit_hash cache enacted retracted) is_best = _
  rw [hrec]

theorem c3_amended_wipe_on_log_miss_witness :
    reconcilePhase c3view.commit_hash
        { accounts := [(1, some (Account.new_basic 2 0))], modifications := [] }
        [] [3]
      = freshAccountCache ∧
    c3view.sync_cache
        { accounts := [(1, some (Account.new_basic 2 0))], modifications := [] }
        [] [3] true
      = publishPhase c3view freshAccountCache true :=
  c3_amended_wipe_on_log_miss c3view
    { accounts := [(1, some (Account.new_basic 2 0))], modifications := [] }
    [] [3] true (Or.inl ⟨3, by simp, rfl⟩)

theorem c4_loop_rel (c : H256) :
    ∀ (en : List H256) (cache : AccountCache),
      enactedLoop (some c) en cache false = enactedLoopClaimed c en cache false ∨
      ((enactedLoop (some c) en cache false).2 = true ∧
       (enactedLoopClaimed c en cache false).2 = true) := by
  intro en
  induction en with
  | nil => intro cache; exact Or.inl rfl
  | cons blk rest ih =>
    intro cache
    simp only [enactedLoop, enactedLoopClaimed]
    by_cases hblk : blk = c
    · simp only [hblk, bne_self_eq_false, Bool.false_eq_true, if_false, if_neg,
        ne_eq, not_true_eq_false]
      exact ih cache
    · rw [if_pos (by simp [hblk]), if_pos hblk]
      simp only [Bool.false_eq_true, if_false]
      cases hr : reconcileBlock true cache blk with
      | some cache' => simp only [hr]; exact ih cache'
      | none =>
        simp only [hr]
        exact Or.inr ⟨by simp [enactedLoop_clear_true],
          enactedLoopClaimed_true c rest cache⟩

/-- Claim C4: for a view with a commit hash, `sync_cache` reconciles the
enacted hashes exactly as the spec states — a hash equal to the commit hash
is skipped, a hash with a log record has that record marked canonical and
its addresses dropped from the LRU, and a hash without a record sets the
clear-all flag (the code's short-circuiting of the loop body once the flag
is set never changes the result, because everything is wiped afterwards). -/
theorem c4_enacted_reconciliation (s : StateDB) (cache : AccountCache)
    (enacted retracted : List H256) (is_best : Bool) (c : H256)
    (h : s.commit_hash = some c) :
    s.sync_cache cache enacted retracted is_best
      = syncCacheClaimedEnacted s cache c enacted retracted is_best := by
  simp only [StateDB.sync_cache, syncCacheClaimedEnacted, reconcilePhase, h]
  rcases c4_loop_rel c enacted cache with heq | ⟨h1, h2⟩
  · rw [heq]
  · rw [h1, h2, retractedLoop_clear_true, retractedLoop_clear_true]
    simp [applyClear]

theorem c4_enacted_reconciliation_witness :
    c3view.commit_hash = some 7 ∧
    c3view.sync_cache freshAccountCache [4, 7] [] true
      = syncCacheClaimedEnacted c3view freshAccountCache 7 [4, 7] [] true :=
  ⟨rfl, c4_enacted_reconciliation c3view freshAccountCache [4, 7] [] true 7 rfl⟩

theorem numbersOf_setCanonFirst (block : H256) (c : Bool) :
    ∀ (mods : List BlockChanges),
      numbersOf (setCanonFirst mods block c) = numbersOf mods := by
  intro mods
  induction mods with
  | nil => rfl
  | cons m rest ih =>
    simp only [setCanonFirst]
    split
    · simp [numbersOf]
    · simp only [numbersOf, List.map_cons]
      exact congrArg (List.cons m.number) ih

theorem numbersOf_reconcile (canon : Bool) (cache cache' : AccountCache)
    (block : H256) (hr : reconcileBlock canon cache block = some cache') :
    numbersOf cache'.modifications = numbersOf cache.modifications := by
  unfold reconcileBlock at hr
  cases hf : cache.modifications.find? (fun m => m.hash == block) with
  | none => rw [hf] at hr; cases hr
  | some m =>
    rw [hf] at hr
    injection hr with hr'
    rw [← hr']
    exact numbersOf_setCanonFirst block canon cache.modifications

theorem numbersOf_enactedLoop (ch : Option H256) :
    ∀ (en : List H256) (cache : AccountCache) (clear : Bool),
      numbersOf (enactedLoop ch en cache clear).1.modifications
        = numbersOf cache.modifications := by
  intro en
  induction en with
  | nil => intro cache clear; rfl
  | cons blk rest ih =>
    intro cache clear
    simp only [enactedLoop]
    split
    · split
      · exact ih cache true
      · cases hr : reconcileBlock true cache blk with
        | none => simp only [hr]; exact ih cache true
        | some cache' =>
          simp only [hr]
          rw [ih cache' false, numbersOf_reconcile true cache cache' blk hr]
    · exact ih cache clear

theorem numbersOf_retractedLoop :
    ∀ (re : List H256) (cache : AccountCache) (clear : Bool),
      numbersOf (retractedLoop re cache clear).1.modifications
        = numbersOf cache.modifications := by
  intro re
  induction re with
  | nil => intro cache clear; rfl
  | cons r rest ih =>
    intro cache clear
    simp only [retractedLoop]
    split
    · exact ih cache true
    · cases hr : reconcileBlock false cache r with
      | none => simp only [hr]; exact ih cache true
      | some cache' =>
        simp only [hr]
        rw [ih cache' false, numbersOf_reconcile false cache cache' r hr]

theorem length_eq_of_numbersOf_eq (l1 l2 : List BlockChanges)
    (h : numbersOf l1 = numbersOf l2) : l1.length = l2.length := by
  have := congrArg List.length h
  simpa [numbersOf] using this

theorem numbersOf_insertModification :
    ∀ (mods : List BlockChanges) (bc : BlockChanges),
      numbersOf (insertModification mods bc)
        = insertNum (numbersOf mods) bc.number := by
  intro mods
  induction mods with
  | nil => intro bc; rfl
  | cons m rest ih =>
    intro bc
    simp only [insertModification, insertNum, numbersOf, List.map_cons]
    split
    · simp [numbersOf]
    · simpa [numbersOf] using ih bc

theorem insertNum_length : ∀ (l : List Nat) (n : Nat),
    (insertNum l n).length = l.length + 1 := by
  intro l
  induction l with
  | nil => intro n; rfl
  | cons m rest ih =>
    intro n
    simp only [insertNum]
    split <;> simp [ih]

theorem mem_insertNum : ∀ (l : List Nat) (n x : Nat),
    x ∈ insertNum l n → x ∈ l ∨ x = n := by
  intro l
  induction l with
  | nil => intro n x hx; simp [insertNum] at hx; exact Or.inr hx
  | cons m rest ih =>
    intro n x hx
    simp only [insertNum] at hx
    split at hx
    · rcases List.mem_cons.mp hx with rfl | hx'
      · exact Or.inr rfl
      · exact Or.inl hx'
    · rcases List.mem_cons.mp hx with rfl | hx'
      · exact Or.inl (List.mem_cons_self x rest)
      · rcases ih n x hx' with h1 | h2
        · exact Or.inl (List.mem_cons_of_mem m h1)
        · exact Or.inr h2

theorem insertNum_sorted : ∀ (l : List Nat) (n : Nat),
    sortedDesc l → sortedDesc (insertNum l n) := by
  intro l
  induction l with
  | nil => intro n _; simp [insertNum, sortedDesc]
  | cons m rest ih =>
    intro n h
    rw [sortedDesc, List.pairwise_cons] at h
    obtain ⟨hm, hrest⟩ := h
    simp only [insertNum]
    split
    · rename_i hmn
      rw [sortedDesc, List.pairwise_cons]
      refine ⟨?_, ?_⟩
      · intro b hb
        rcases List.mem_cons.mp hb with rfl | hb'
        · exact Nat.le_of_lt hmn
        · exact Nat.le_trans (hm b hb') (Nat.le_of_lt hmn)
      · rw [List.pairwise_cons]
        exact ⟨hm, hrest⟩
    · rename_i hmn
      rw [sortedDesc, List.pairwise_cons]
      refine ⟨?_, ih n hrest⟩
      intro b hb
      rcases mem_insertNum rest n b hb with h1 | rfl
      · exact hm b h1
      · exact Nat.le_of_not_lt hmn

theorem insertModification_length :
    ∀ (mods : List BlockChanges) (bc : BlockChanges),
      (insertModification mods bc).length = mods.length + 1 := by
  intro mods
  induction mods with
  | nil => intro bc; rfl
  | cons m rest ih =>
    intro bc
    simp only [insertModification]
    split <;> simp [ih]

theorem logInv_fresh : logInv freshAccountCache := by
  constructor
  · simp [freshAccountCache, STATE_CACHE_BLOCKS]
  · simp [freshAccountCache, numbersOf, sortedDesc]

theorem logInv_reconcilePhase (ch : Option H256) (cache : AccountCache)
    (en re : List H256) (h : logInv cache) :
    logInv (reconcilePhase ch cache en re) := by
  simp only [reconcilePhase]
  cases hcl : (retractedLoop re (enactedLoop ch en cache false).1
      (enactedLoop ch en cache false).2).2 with
  | true => simpa [applyClear] using logInv_fresh
  | false =>
    simp only [applyClear, Bool.false_eq_true, if_false]
    have hnum : numbersOf (retractedLoop re (enactedLoop ch en cache false).1
        (enactedLoop ch en cache false).2).1.modifications
        = numbersOf cache.modifications := by
      rw [numbersOf_retractedLoop, numbersOf_enactedLoop]
    constructor
    · rw [length_eq_of_numbersOf_eq _ _ hnum]
      exact h.1
    · rw [hnum]
      exact h.2

theorem logInv_publish (s : StateDB) (cache : AccountCache) (best : Bool)
    (h : logInv cache) : logInv (publishPhase s cache best).2 := by
  cases hn : s.commit_number with
  | none => simpa [publishPhase, hn] using h
  | some n =>
    cases hh : s.commit_hash with
    | none => simpa [publishPhase, hn, hh] using h
    | some hsh =>
      cases hp : s.parent_hash with
      | none => simpa [publishPhase, hn, hh, hp] using h
      | some p =>
        simp only [publishPhase, hn, hh, hp]
        set mods0 := if cache.modifications.length == STATE_CACHE_BLOCKS
          then cache.modifications.dropLast else cache.modifications with hm0
        have hlen0 : mods0.length + 1 ≤ STATE_CACHE_BLOCKS := by
          rw [hm0]
          by_cases hfull : cache.modifications.length = STATE_CACHE_BLOCKS
          · simp only [hfull, beq_self_eq_true, if_pos, List.length_dropLast]
            simp [STATE_CACHE_BLOCKS]
          · rw [if_neg (by simpa using hfull)]
            have := h.1
            omega
        have hsort0 : sortedDesc (numbersOf mods0) := by
          rw [hm0]
          split
          · have hsub : List.Sublist (numbersOf cache.modifications.dropLast)
                (numbersOf cache.modifications) :=
              List.Sublist.map _ (List.dropLast_sublist cache.modifications)
            exact List.Pairwise.sublist hsub h.2
          · exact h.2
        constructor
        · simpa [insertModification_length] using hlen0
        · rw [numbersOf_insertModification]
          exact insertNum_sorted (numbersOf mods0) _ hsort0

theorem logInv_sync (v : StateDB) (cache : AccountCache)
    (en re : List H256) (b : Bool) (h : logInv cache) :
    logInv (v.sync_cache cache en re b).2 :=
  logInv_publish v _ b (logInv_reconcilePhase v.commit_hash cache en re h)

theorem logInv_runSyncCalls :
    ∀ (calls : List SyncCall) (cache : AccountCache),
      logInv cache → logInv (runSyncCalls cache calls) := by
  intro calls
  induction calls with
  | nil => intro cache h; exact h
  | cons call rest ih =>
    intro cache h
    simp only [runSyncCalls, List.foldl_cons]
    exact ih _ (logInv_sync call.view cache call.enacted call.retracted call.is_best h)

/-- Claim C5 as stated is false: the log is not *strictly* ordered by
descending block number — two sibling commits sharing a block number leave
the log with numbers `[1, 1]`. -/
theorem c5_counterexample :
    numbersOf (runSyncCalls freshAccountCache [c5call1, c5call2]).modifications
      = [1, 1] ∧
    ¬ strictDesc
      (numbersOf (runSyncCalls freshAccountCache [c5call1, c5call2]).modifications) := by
  refine ⟨by decide, ?_⟩
  intro hs
  rw [show numbersOf
      (runSyncCalls freshAccountCache [c5call1, c5call2]).modifications
      = [1, 1] from by decide] at hs
  simp [strictDesc, List.pairwise_cons] at hs

/-- Claim C5, amended: after every sequence of `sync_cache` calls starting
from a fresh cache, the modification log holds at most
`STATE_CACHE_BLOCKS = 8` entries and is ordered by non-increasing
(descending, with ties across sibling branches) block number; on overflow
the publish step discards the oldest (rear) entry before inserting the new
`BlockChanges`. -/
theorem c5_log_bounded_and_ordered :
    (∀ calls : List SyncCall, logInv (runSyncCalls freshAccountCache calls)) ∧
    (∀ (s : StateDB) (cache : AccountCache) (best : Bool)
        (n : BlockNumber) (h p : H256),
      s.commit_number = some n → s.commit_hash = some h → s.parent_hash = some p →
      cache.modifications.length = STATE_CACHE_BLOCKS →
      ((s.sync_cache cache [] [] best).2).modifications
        = insertModification cache.modifications.dropLast
            { number := n, hash := h, parent := p,
              accounts := pendingModifiedSet s.pending_cache, is_canon := best }) := by
  constructor
  · intro calls
    exact logInv_runSyncCalls calls freshAccountCache logInv_fresh
  · intro s cache best n h p h1 h2 h3 h4
    simp [StateDB.sync_cache, reconcilePhase, enactedLoop, retractedLoop,
      applyClear, publishPhase, h1, h2, h3, h4]

theorem c5_log_bounded_and_ordered_witness :
    cacheFullLog.modifications.length = STATE_CACHE_BLOCKS ∧
    ((c3view.sync_cache cacheFullLog [] [] true).2).modifications
      = insertModification cacheFullLog.modifications.dropLast
          { number := 1, hash := 7, parent := 5, accounts := [],
            is_canon := true } :=
  ⟨rfl, c5_log_bounded_and_ordered.2 c3view cacheFullLog true 1 7 5 rfl rfl rfl rfl⟩

/-- Claim C9 as stated is false: `load_bloom` reads the words indexed
`0 ≤ i < ACCOUNT_BLOOM_SPACE / 8`, not `ACCOUNT_BLOOM_SPACE / 64`; on a
store holding only a hash-count byte the two readings already disagree. -/
theorem c9_counterexample :
    load_bloom bloomDbHashCountOnly ≠ load_bloom_claimed bloomDbHashCountOnly := by
  have hA : load_bloom bloomDbHashCountOnly
      = some (Bloom.from_parts
          ((List.range (ACCOUNT_BLOOM_SPACE / 8)).map (fun i =>
            match bloomDbHashCountOnly (writeU64 i) with
            | some val => readU64 val
            | none => 0)) 3) := rfl
  have hB : load_bloom_claimed bloomDbHashCountOnly
      = some (Bloom.from_parts
          ((List.range (ACCOUNT_BLOOM_SPACE / 64)).map (fun i =>
            match bloomDbHashCountOnly (writeU64 i) with
            | some val => readU64 val
            | none => 0)) 3) := rfl
  intro h
  rw [hA, hB] at h
  injection h with h1
  injection h1 with h2 h3
  have hlen := congrArg List.length h2
  simp only [List.length_map, List.length_range] at hlen
  exact absurd hlen (by decide)

/-- Claim C9, amended: `load_bloom` behaves as the claim states except that
the reassembly reads exactly the words keyed by the 8-byte little-endian
indices `0 ≤ i < ACCOUNT_BLOOM_SPACE / 8` (and a fresh Bloom is built when
the hash-function-count key is absent, with absent words read as zero). -/
theorem c9_load_bloom_amended :
    ∀ db : BloomDb, load_bloom db = load_bloom_amended db :=
  fun _ => rfl
